import Mathlib

/-!
Verification of the backtracking module (`src/algorithms/backtracking.py`) of
the `dsa_python` repository.

Each Python function relevant to the claims is shallowly embedded as an
executable Lean definition.  Python lists become Lean `List`s, Python `int`s
become `Int` (or `Nat` where the source only ever holds non-negative values),
Python sets become `Finset Nat`, strings become `List Char`, and in-place
mutation of a list (with its symmetric undo) becomes explicit state passing:
a helper that mutates its state in Python is embedded as a function that
also returns the resulting state.  Functions whose recursion is driven by a
quantity the Lean termination checker cannot see structurally take an extra
`fuel : Nat` argument; every top-level entry point supplies fuel that is a
proved (or evident) upper bound on the recursion depth, so the fuel-out
branches are unreachable and the embedding computes exactly what the Python
code computes.  A `ValueError` raised by input validation is embedded as
`Option.none`.
-/

namespace DSA

/-! ## Python-style list helpers -/

/-- Python `l[i]` read with a default (all reachable uses in the embedded
code are in bounds, where `getD` agrees with Python indexing). -/
def pyget (l : List α) (i : Nat) (d : α) : α := l.getD i d

/-- Read of cell `(r, c)` of a Python list-of-lists grid. -/
def get2 (g : List (List α)) (r c : Nat) (d : α) : α := (g.getD r []).getD c d

/-- Write of cell `(r, c)` of a Python list-of-lists grid
(`g[r][c] = x`). Out-of-range writes are no-ops, matching the fact that the
embedded code only ever writes in bounds. -/
def set2 (g : List (List α)) (r c : Nat) (x : α) : List (List α) :=
  g.set r ((g.getD r []).set c x)

/-! ## `n_queens` (source lines 40-80)

`board` is the growing list of chosen column indices, one per already placed
row; solutions are accumulated in candidate order, which matches the order
Python appends them to the shared `solutions` list. -/

/-- Embeds the inner `is_safe(board, row, col)` of `n_queens`. -/
def nq_is_safe (board : List Nat) (row col : Nat) : Bool :=
  (List.range row).all fun i =>
    !(pyget board i 0 == col
      || decide ((pyget board i 0 : Int) - i = (col : Int) - row)
      || pyget board i 0 + i == col + row)

/-- Embeds the inner `solve(row, board, solutions)` of `n_queens`; the result
list plays the role of the mutated `solutions` sink, and the pure `board`
argument plays the role of the append/pop pair. `fuel ≥ n - row` on every
reachable call, so the fuel-out branch is dead. -/
def nq_solve (n : Nat) : Nat → Nat → List Nat → List (List Nat)
  | fuel, row, board =>
    if row = n then [board]
    else
      match fuel with
      | 0 => []
      | fuel + 1 =>
        (List.range n).flatMap fun col =>
          if nq_is_safe board row col then nq_solve n fuel (row + 1) (board ++ [col])
          else []

/-- Embeds `n_queens(n)` for positive `n` (the `ValueError` branch for
non-positive input is outside every claim considered here). -/
def n_queens (n : Nat) : List (List Nat) := nq_solve n n 0 []

/-! ## `subset_sum` (source lines 186-219) -/

/-- Embeds the inner `backtrack(start, path, current_sum)` of `subset_sum`.
Results are accumulated in the order Python appends them.  `fuel` dominates
the recursion depth (`start` strictly increases and is bounded by
`nums.length`). -/
def ss_backtrack (nums : List Int) (target : Int) :
    Nat → Nat → List Int → Int → List (List Int)
  | fuel, start, path, csum =>
    if csum = target then [path]
    else if target < csum then []
    else
      match fuel with
      | 0 => []
      | fuel + 1 =>
        (List.range' start (nums.length - start)).flatMap fun i =>
          ss_backtrack nums target fuel (i + 1) (path ++ [nums.getD i 0])
            (csum + nums.getD i 0)

/-- Embeds `subset_sum(nums, target)` (the validation only checks the Python
types already imposed by this embedding's types). -/
def subset_sum (nums : List Int) (target : Int) : List (List Int) :=
  ss_backtrack nums target (nums.length + 1) 0 [] 0

/-! ## `permutations` (source lines 222-251)

The Python code permutes `nums` in place by a swap, recurses, and swaps
back; the embedding threads `nums` through every call and returns it next to
the accumulated result list, so that the final `nums` of the embedding is
exactly the caller-visible content of the Python list after the call. -/

/-- Python's simultaneous swap `nums[i], nums[j] = nums[j], nums[i]`. -/
def swapL (l : List Int) (i j : Nat) : List Int :=
  (l.set i (l.getD j 0)).set j (l.getD i 0)

/-- The `for i in range(start, len(nums))` loop body of `permutations`;
`rec` is the recursive call `backtrack(start + 1)` at one fuel less, passed
as a function so the driver below is structurally recursive on its fuel. -/
def perm_loop (start : Nat) (rec : List Int → List (List Int) × List Int) :
    List Nat → List Int → List (List Int) × List Int
  | [], nums => ([], nums)
  | i :: rest, nums =>
    let n1 := swapL nums start i
    let r1 := rec n1
    let n3 := swapL r1.2 start i
    let r2 := perm_loop start rec rest n3
    (r1.1 ++ r2.1, r2.2)

/-- Embeds the inner `backtrack(start)` of `permutations`: first component
is the slice of the `result` sink produced by the call, second component the
content of `nums` when the call returns. -/
def perm_backtrack : Nat → Nat → List Int → List (List Int) × List Int
  | fuel, start, nums =>
    if start = nums.length then ([nums], nums)
    else
      match fuel with
      | 0 => ([], nums)
      | fuel + 1 =>
        perm_loop start (fun ns => perm_backtrack fuel (start + 1) ns)
          (List.range' start (nums.length - start)) nums

/-- Embeds `permutations(nums)`: first component is the returned `result`
list, second the content of the argument list after the call. -/
def permutations (nums : List Int) : List (List Int) × List Int :=
  perm_backtrack (nums.length + 1) 0 nums

/-! ## `word_search` (source lines 135-183)

The Python code marks the visited cell with `"#"`, explores the four
neighbours with a short-circuiting `or`, then writes the saved character
back; the embedding threads the board through the four children and applies
the same restore on every exit path of the marked branch. -/

/-- Embeds the inner `backtrack(r, c, index)` of `word_search` (`rows` and
`cols` are the closure variables of the source).  Coordinates are `Int`
because Python decrements them below zero before the bounds check rejects
them.  `fuel ≥ word.length - index` on every reachable call. -/
def ws_backtrack (word : List Char) (rows cols : Nat) :
    Nat → Int → Int → Nat → List (List Char) → Bool × List (List Char)
  | fuel, r, c, index, board =>
    if index = word.length then (true, board)
    else if r < 0 ∨ c < 0 ∨ (rows : Int) ≤ r ∨ (cols : Int) ≤ c
        ∨ get2 board r.toNat c.toNat ' ' ≠ word.getD index ' ' then (false, board)
    else
      match fuel with
      | 0 => (false, board)
      | fuel + 1 =>
        let temp := get2 board r.toNat c.toNat ' '
        let b0 := set2 board r.toNat c.toNat '#'
        let r1 := ws_backtrack word rows cols fuel (r + 1) c (index + 1) b0
        if r1.1 then (true, set2 r1.2 r.toNat c.toNat temp)
        else
          let r2 := ws_backtrack word rows cols fuel (r - 1) c (index + 1) r1.2
          if r2.1 then (true, set2 r2.2 r.toNat c.toNat temp)
          else
            let r3 := ws_backtrack word rows cols fuel r (c + 1) (index + 1) r2.2
            if r3.1 then (true, set2 r3.2 r.toNat c.toNat temp)
            else
              let r4 := ws_backtrack word rows cols fuel r (c - 1) (index + 1) r3.2
              (r4.1, set2 r4.2 r.toNat c.toNat temp)

/-- The `for i in range(rows): for j in range(cols)` driver loop of
`word_search`, threading the board between starting cells. -/
def ws_scan (word : List Char) (rows cols : Nat) :
    List (Nat × Nat) → List (List Char) → Bool × List (List Char)
  | [], board => (false, board)
  | rc :: rest, board =>
    let r1 := ws_backtrack word rows cols word.length rc.1 rc.2 0 board
    if r1.1 then (true, r1.2) else ws_scan word rows cols rest r1.2

/-- Embeds `word_search(board, word)`: first component is the returned
boolean, second the content of the board after the call (the source's type
validation is subsumed by the embedding's types; the emptiness checks of
line 155 are kept). -/
def word_search (board : List (List Char)) (word : List Char) :
    Bool × List (List Char) :=
  if board = [] ∨ board.getD 0 [] = [] ∨ word = [] then (false, board)
  else
    ws_scan word board.length (board.getD 0 []).length
      ((List.range board.length).flatMap fun i =>
        (List.range (board.getD 0 []).length).map fun j => (i, j))
      board

/-! ## `all_possible_valid_parentheses` (source lines 473-502)

Python strings are embedded as `List Char`. -/

/-- Embeds the inner `backtrack(s, left, right)` of
`all_possible_valid_parentheses`, with the `"("` branch explored before the
`")"` branch exactly as in the source.  Every reachable call has
`s.length = left + right`, `left ≤ n` and `right ≤ left`, so
`fuel ≥ 2*n - s.length` keeps the fuel-out branch dead. -/
def ap_backtrack (n : Nat) : Nat → List Char → Nat → Nat → List (List Char)
  | fuel, s, lf, rt =>
    if s.length = 2 * n then [s]
    else
      match fuel with
      | 0 => []
      | fuel + 1 =>
        (if lf < n then ap_backtrack n fuel (s ++ ['(']) (lf + 1) rt else []) ++
        (if rt < lf then ap_backtrack n fuel (s ++ [')']) lf (rt + 1) else [])

/-- Embeds `all_possible_valid_parentheses(n)` for non-negative `n` (the
`ValueError` branch rejects only inputs outside `Nat`). -/
def all_possible_valid_parentheses (n : Nat) : List (List Char) :=
  ap_backtrack n (2 * n) [] 0 0

/-- Balancedness of a parentheses string, phrased as in claim C8: scanning
left to right with a counter of unmatched `'('`, no prefix may close more
than it opened, and the counter ends at zero. -/
def balancedFrom : List Char → Nat → Bool
  | [], k => k == 0
  | ch :: rest, k =>
    if ch = '(' then balancedFrom rest (k + 1)
    else if ch = ')' then k != 0 && balancedFrom rest (k - 1)
    else false

/-- A balanced parentheses string (claim C8's notion). -/
def isBalanced (s : List Char) : Bool := balancedFrom s 0

/-! ## `string_pattern_matching` (source lines 505-526)

The Python `or`/`and` short-circuiting of
`backtrack(i, j+2) or (first_match and backtrack(i+1, j))` is written out as
nested conditionals; the guard `first_match` in front of each recursive call
is exactly Python's lazy `and`. -/

/-- Embeds the inner `backtrack(i, j)` of `string_pattern_matching`.  Every
call strictly decreases `(s.length - i) + (p.length - j)`, so
`fuel ≥ s.length + p.length` keeps the fuel-out branch dead. -/
def spm_backtrack (s p : List Char) : Nat → Nat → Nat → Bool
  | fuel, i, j =>
    if j = p.length then i == s.length
    else
      let firstMatch := i < s.length ∧ (p.getD j ' ' = s.getD i ' ' ∨ p.getD j ' ' = '.')
      match fuel with
      | 0 => false
      | fuel + 1 =>
        if j + 1 < p.length ∧ p.getD (j + 1) ' ' = '*' then
          if spm_backtrack s p fuel i (j + 2) then true
          else if firstMatch then spm_backtrack s p fuel (i + 1) j else false
        else if firstMatch then spm_backtrack s p fuel (i + 1) (j + 1) else false

/-- Embeds `string_pattern_matching(s, pattern)`. -/
def string_pattern_matching (s p : List Char) : Bool :=
  spm_backtrack s p (s.length + p.length + 1) 0 0

/-! ## `sudoku_solver` (source lines 83-132)

The board is a `9 × 9` grid of digits with `0` marking empty cells.  The
source's `solve_sudoku` mutates the board in place; the embedding threads
the board.  Crucially, line 131-132 of the source call `solve_sudoku()`,
**discard** its boolean, and return `True` unconditionally; the embedding
reproduces that faithfully in `sudoku_solver`. -/

/-- Embeds the inner `is_valid(num, row, col)` of `sudoku_solver`. -/
def sudoku_is_valid (board : List (List Nat)) (num row col : Nat) : Bool :=
  ((List.range 9).all fun i =>
    get2 board row i 0 != num && get2 board i col 0 != num) &&
  ((List.range 3).all fun i =>
    (List.range 3).all fun j =>
      get2 board (3 * (row / 3) + i) (3 * (col / 3) + j) 0 != num)

/-- The first empty cell in row-major order among indices `0..8`, i.e. the
cell at which the source's nested `for row / for col` loops stop. -/
def firstEmpty (board : List (List Nat)) : Option (Nat × Nat) :=
  ((List.range 9).flatMap fun r => (List.range 9).map fun c => (r, c)).find?
    fun rc => get2 board rc.1 rc.2 0 == 0

/-- The `for num in range(1, 10)` loop of `solve_sudoku`, including the
`board[row][col] = 0` undo after a failed recursive call and the
`return False` when all digits are exhausted; `rec` is the recursive
`solve_sudoku()` call at one fuel less. -/
def sudokuTry (r c : Nat) (rec : List (List Nat) → Bool × List (List Nat)) :
    List Nat → List (List Nat) → Bool × List (List Nat)
  | [], board => (false, board)
  | num :: rest, board =>
    if sudoku_is_valid board num r c then
      let r1 := rec (set2 board r c num)
      if r1.1 then (true, r1.2)
      else sudokuTry r c rec rest (set2 r1.2 r c 0)
    else sudokuTry r c rec rest board

/-- Embeds the inner `solve_sudoku()` of `sudoku_solver`: first component
is the boolean the Python function returns, second the board state when it
returns.  `fuel` bounds the number of empty cells still to fill
(`fuel = 82` at the top level is more than the 81 cells of the grid). -/
def solveSudoku : Nat → List (List Nat) → Bool × List (List Nat)
  | fuel, board =>
    match firstEmpty board with
    | none => (true, board)
    | some rc =>
      match fuel with
      | 0 => (false, board)
      | fuel + 1 =>
        sudokuTry rc.1 rc.2 (fun b => solveSudoku fuel b) (List.range' 1 9) board

/-- Embeds `sudoku_solver(board)`.  `none` is the `ValueError` of the shape
validation of lines 96-104; otherwise the source runs `solve_sudoku()`,
ignores its result, and returns `True` together with the (possibly
mutated) board. -/
def sudoku_solver (board : List (List Nat)) : Option (Bool × List (List Nat)) :=
  if board.length = 9 ∧ (∀ row ∈ board, row.length = 9)
      ∧ (∀ row ∈ board, ∀ cell ∈ row, cell ≤ 9) then
    some (true, (solveSudoku 82 board).2)
  else none

/-- A valid, well-formed `9 × 9` Sudoku input that admits no solution: row 0
is `1..8` followed by an empty cell, and the `9` in row 1 of the last column
forbids the only remaining digit for that cell. -/
def badBoard : List (List Nat) :=
  [[1, 2, 3, 4, 5, 6, 7, 8, 0],
   [0, 0, 0, 0, 0, 0, 0, 0, 9],
   [0, 0, 0, 0, 0, 0, 0, 0, 0],
   [0, 0, 0, 0, 0, 0, 0, 0, 0],
   [0, 0, 0, 0, 0, 0, 0, 0, 0],
   [0, 0, 0, 0, 0, 0, 0, 0, 0],
   [0, 0, 0, 0, 0, 0, 0, 0, 0],
   [0, 0, 0, 0, 0, 0, 0, 0, 0],
   [0, 0, 0, 0, 0, 0, 0, 0, 0]]

/-- What it means for a full grid `sol` to solve the Sudoku instance `orig`
(the docstring's notion of "the Sudoku is solved": digits `1..9`, the given
clues kept, and the row/column/box uniqueness the source's `is_valid`
enforces).  Used to state that `badBoard` has no solution. -/
def isSudokuSolution (orig sol : List (List Nat)) : Prop :=
  (∀ r < 9, ∀ c < 9, 1 ≤ get2 sol r c 0 ∧ get2 sol r c 0 ≤ 9) ∧
  (∀ r < 9, ∀ c < 9, get2 orig r c 0 ≠ 0 → get2 sol r c 0 = get2 orig r c 0) ∧
  (∀ r < 9, ∀ c1 < 9, ∀ c2 < 9, c1 ≠ c2 → get2 sol r c1 0 ≠ get2 sol r c2 0) ∧
  (∀ c < 9, ∀ r1 < 9, ∀ r2 < 9, r1 ≠ r2 → get2 sol r1 c 0 ≠ get2 sol r2 c 0) ∧
  (∀ r1 < 9, ∀ c1 < 9, ∀ r2 < 9, ∀ c2 < 9, (r1, c1) ≠ (r2, c2) →
    r1 / 3 = r2 / 3 → c1 / 3 = c2 / 3 → get2 sol r1 c1 0 ≠ get2 sol r2 c2 0)

/-! ## `magic_square` (source lines 529-596)

The search state is the closure state of the source: the `n × n` grid
`square` and the Python set `used`, embedded as a `Finset Nat`.  The
source's `is_valid` mutates both (`square[row][col] = num`; `used.add(num)`)
and undoes the mutation only on the paths where it returns `False`; the
embedding returns the state next to the boolean. -/

/-- The `square`/`used` closure state of `magic_square`. -/
structure MSState where
  square : List (List Nat)
  used : Finset Nat
deriving DecidableEq

/-- `magic_sum = n * (n * n + 1) // 2` (source line 545). -/
def msMagicSum (n : Nat) : Nat := n * (n * n + 1) / 2

/-- `all(square[row][c] != 0 for c in range(n))`. -/
def msRowFull (sq : List (List Nat)) (n row : Nat) : Bool :=
  (List.range n).all fun c => get2 sq row c 0 != 0

/-- `sum(square[row])` for an `n`-wide row. -/
def msRowSum (sq : List (List Nat)) (n row : Nat) : Nat :=
  ((List.range n).map fun c => get2 sq row c 0).sum

/-- `all(square[r][col] != 0 for r in range(n))`. -/
def msColFull (sq : List (List Nat)) (n col : Nat) : Bool :=
  (List.range n).all fun r => get2 sq r col 0 != 0

/-- `sum(square[r][col] for r in range(n))`. -/
def msColSum (sq : List (List Nat)) (n col : Nat) : Nat :=
  ((List.range n).map fun r => get2 sq r col 0).sum

/-- `all(square[i][i] != 0 for i in range(n))`. -/
def msDiagFull (sq : List (List Nat)) (n : Nat) : Bool :=
  (List.range n).all fun i => get2 sq i i 0 != 0

/-- `sum(square[i][i] for i in range(n))`. -/
def msDiagSum (sq : List (List Nat)) (n : Nat) : Nat :=
  ((List.range n).map fun i => get2 sq i i 0).sum

/-- `all(square[i][n - 1 - i] != 0 for i in range(n))`. -/
def msAntiFull (sq : List (List Nat)) (n : Nat) : Bool :=
  (List.range n).all fun i => get2 sq i (n - 1 - i) 0 != 0

/-- `sum(square[i][n - 1 - i] for i in range(n))`. -/
def msAntiSum (sq : List (List Nat)) (n : Nat) : Nat :=
  ((List.range n).map fun i => get2 sq i (n - 1 - i) 0).sum

/-- Embeds the inner `is_valid(row, col, num)` of `magic_square`: first
component is the returned boolean, second the closure state when the call
returns.  The source places `num` and adds it to `used` *before* the four
line checks, and undoes that (`square[row][col] = 0`; `used.remove(num)`)
only on the four `return False` paths. -/
def ms_is_valid (n : Nat) (st : MSState) (row col num : Nat) : Bool × MSState :=
  if num ∈ st.used then (false, st)
  else
    let sq := set2 st.square row col num
    let us := insert num st.used
    let undo : MSState := ⟨set2 sq row col 0, us.erase num⟩
    if msRowFull sq n row ∧ msRowSum sq n row ≠ msMagicSum n then (false, undo)
    else if msColFull sq n col ∧ msColSum sq n col ≠ msMagicSum n then (false, undo)
    else if row = col ∧ msDiagFull sq n ∧ msDiagSum sq n ≠ msMagicSum n then
      (false, undo)
    else if row + col = n - 1 ∧ msAntiFull sq n ∧ msAntiSum sq n ≠ msMagicSum n then
      (false, undo)
    else (true, ⟨sq, us⟩)

/-- The `for num in range(1, n * n + 1)` loop of `magic_square`'s
`backtrack`, including the undo after a failed recursive call; `rec` is the
recursive `backtrack` call on the next cell at one fuel less. -/
def msTry (n row col : Nat) (rec : MSState → Bool × MSState) :
    List Nat → MSState → Bool × MSState
  | [], st => (false, st)
  | num :: rest, st =>
    let r0 := ms_is_valid n st row col num
    if r0.1 then
      let r1 := rec r0.2
      if r1.1 then (true, r1.2)
      else msTry n row col rec rest ⟨set2 r1.2.square row col 0, r1.2.used.erase num⟩
    else msTry n row col rec rest r0.2

/-- Embeds the inner `backtrack(row, col)` of `magic_square`
(`fuel ≥ n*n - (n*row + col)` on every reachable call). -/
def ms_backtrack (n : Nat) : Nat → Nat → Nat → MSState → Bool × MSState
  | fuel, row, col, st =>
    if row = n then (true, st)
    else
      match fuel with
      | 0 => (false, st)
      | fuel + 1 =>
        let nxt : Nat × Nat := if col + 1 < n then (row, col + 1) else (row + 1, 0)
        msTry n row col (fun s => ms_backtrack n fuel nxt.1 nxt.2 s)
          (List.range' 1 (n * n)) st

/-- Embeds `magic_square(n)` for positive `n`: the search runs from cell
`(0, 0)` on an all-zero grid and the function returns `square` whether or
not the search succeeded. -/
def magic_square (n : Nat) : List (List Nat) :=
  (ms_backtrack n (n * n + 1) 0 0 ⟨List.replicate n (List.replicate n 0), ∅⟩).2.square

/-- The initial closure state of `magic_square n`: all-zero grid, empty
`used` set.  It is the state seen by the very first `is_valid` call the
search makes (`backtrack(0, 0)` with candidate `num = 1`). -/
def msInit (n : Nat) : MSState := ⟨List.replicate n (List.replicate n 0), ∅⟩

/-! ## `hamiltonian_cycle` (source lines 296-341)

`path` is the fixed-length Python list initialised to `[-1] * n` with
`path[0] = 0`; entries are `Int` because `-1` marks an unfilled slot.
Python list indexing wraps negative indices, which the reachable states
never exercise (every index read is a filled slot); `pyGetI`/`pyGetRow`
reproduce the wrap for faithfulness. -/

/-- Python `l[i]` on a list of ints: non-negative indices read from the
front, negative indices wrap from the back (out-of-range reads, which are
unreachable in the embedded code, default to `0`). -/
def pyGetI (l : List Int) (i : Int) : Int :=
  if 0 ≤ i then l.getD i.toNat 0 else l.getD (l.length - (-i).toNat) 0

/-- Python `g[i]` on the adjacency matrix. -/
def pyGetRow (g : List (List Int)) (i : Int) : List Int :=
  if 0 ≤ i then g.getD i.toNat [] else g.getD (g.length - (-i).toNat) []

/-- Python `graph[u][v]` with `Int` subscripts. -/
def gmat (g : List (List Int)) (u v : Int) : Int := pyGetI (pyGetRow g u) v

/-- Embeds the inner `is_safe(v, pos)` of `hamiltonian_cycle`:
`graph[path[pos - 1]][v] == 0` rejects, `v in path` rejects. -/
def ham_is_safe (g : List (List Int)) (path : List Int) (v pos : Nat) : Bool :=
  if gmat g (path.getD (pos - 1) 0) (v : Int) = 0 then false
  else if (v : Int) ∈ path then false
  else true

/-- The `for v in range(1, n)` loop of `hamiltonian_util`, including the
`path[pos] = -1` undo after a failed recursive call; `rec` is the recursive
`hamiltonian_util(pos + 1)` call at one fuel less. -/
def hamLoop (g : List (List Int)) (pos : Nat) (rec : List Int → Bool × List Int) :
    List Nat → List Int → Bool × List Int
  | [], path => (false, path)
  | v :: vs, path =>
    if ham_is_safe g path v pos then
      let p1 := path.set pos (v : Int)
      let r1 := rec p1
      if r1.1 then (true, r1.2)
      else hamLoop g pos rec vs (r1.2.set pos (-1))
    else hamLoop g pos rec vs path

/-- Embeds the inner `hamiltonian_util(pos)` of `hamiltonian_cycle`: first
component is the returned boolean, second the content of `path` when the
call returns.  `fuel ≥ n - pos` on every reachable call. -/
def hamUtil (g : List (List Int)) (n : Nat) : Nat → Nat → List Int → Bool × List Int
  | fuel, pos, path =>
    if pos = n then
      (decide (gmat g (path.getD (pos - 1) 0) (path.getD 0 0) = 1), path)
    else
      match fuel with
      | 0 => (false, path)
      | fuel + 1 =>
        hamLoop g pos (fun p => hamUtil g n fuel (pos + 1) p)
          (List.range' 1 (n - 1)) path

/-- Embeds `hamiltonian_cycle(graph)`.  `none` is the `ValueError` of the
shape validation (lines 310-314); otherwise the source returns either
`path + [path[0]]` on success or `[]`. -/
def hamiltonian_cycle (g : List (List Int)) : Option (List Int) :=
  if g = [] ∨ ¬ (∀ row ∈ g, row.length = g.length) then none
  else
    let n := g.length
    let path0 := (List.replicate n (-1 : Int)).set 0 0
    let r := hamUtil g n n 1 path0
    if r.1 then some (r.2 ++ [r.2.getD 0 0]) else some []

/-- The properties claim C6 asserts of a non-empty return value `p` of
`hamiltonian_cycle graph` (writing `n` for the number of vertices):
length `n + 1`, starts and ends at vertex `0`, its first `n` entries are a
permutation of the vertices `0..n-1`, and every consecutive pair — the
closing pair `(p[n-1], p[n]) = (p[n-1], p[0])` included — is joined by an
edge of the adjacency matrix. -/
def IsHamProps (g : List (List Int)) (p : List Int) : Prop :=
  p.length = g.length + 1 ∧ p.getD 0 0 = 0 ∧ p.getD g.length 0 = 0 ∧
  (p.take g.length).Perm ((List.range g.length).map Int.ofNat) ∧
  (∀ i < g.length, gmat g (p.getD i 0) (p.getD (i + 1) 0) = 1)

/-- The invariant of `hamiltonian_util`'s search state at position `pos`:
`path` has the fixed length `n`, starts at vertex `0`, its filled prefix
(indices below `pos`) holds pairwise distinct vertices in range joined by
edges, and every slot from `pos` on still holds the `-1` marker. -/
def HamInv (g : List (List Int)) (n pos : Nat) (path : List Int) : Prop :=
  path.length = n ∧ 1 ≤ pos ∧ pos ≤ n ∧ path.getD 0 0 = 0 ∧
  (∀ i, i < pos → 0 ≤ path.getD i 0 ∧ path.getD i 0 < n) ∧
  (∀ i, pos ≤ i → i < n → path.getD i 0 = -1) ∧
  (∀ i j, i < j → j < pos → path.getD i 0 ≠ path.getD j 0) ∧
  (∀ i, i + 1 < pos → gmat g (path.getD i 0) (path.getD (i + 1) 0) ≠ 0)

/-- What `hamiltonian_util` guarantees of the `path` it returns on success:
a full assignment of distinct in-range vertices starting at `0`, joined by
edges, with the closing edge back to the start. -/
def HamGood (g : List (List Int)) (n : Nat) (p : List Int) : Prop :=
  p.length = n ∧ p.getD 0 0 = 0 ∧
  (∀ i, i < n → 0 ≤ p.getD i 0 ∧ p.getD i 0 < n) ∧
  (∀ i j, i < j → j < n → p.getD i 0 ≠ p.getD j 0) ∧
  (∀ i, i + 1 < n → gmat g (p.getD i 0) (p.getD (i + 1) 0) ≠ 0) ∧
  gmat g (p.getD (n - 1) 0) (p.getD 0 0) = 1

/-! ## Helper lemmas: Python-style list operations -/

theorem set_getD_self (l : List α) (n : Nat) (d : α) : l.set n (l.getD n d) = l := by
  induction l generalizing n with
  | nil => simp
  | cons a t ih =>
    cases n with
    | zero => simp [List.getD]
    | succ n => simpa [List.getD] using ih n

theorem getD_set_self (l : List α) (n : Nat) (x d : α) (h : n < l.length) :
    (l.set n x).getD n d = x := by
  induction l generalizing n with
  | nil => simp at h
  | cons a t ih => cases n <;> simp_all [List.getD]

theorem getD_set_ne (l : List α) (m n : Nat) (x d : α) (h : m ≠ n) :
    (l.set m x).getD n d = l.getD n d := by
  induction l generalizing m n with
  | nil => simp
  | cons a t ih => cases m <;> cases n <;> simp_all [List.getD]

theorem set2_set2 (g : List (List α)) (r c : Nat) (x y : α) :
    set2 (set2 g r c x) r c y = set2 g r c y := by
  unfold set2
  by_cases h : r < g.length
  · rw [List.set_set, getD_set_self _ _ _ _ h, List.set_set]
  · have hx : g.set r ((g.getD r []).set c x) = g := List.set_eq_of_length_le (by omega)
    rw [hx]

theorem set2_get2_self (g : List (List α)) (r c : Nat) (d : α) :
    set2 g r c (get2 g r c d) = g := by
  unfold set2 get2
  rw [set_getD_self, set_getD_self]

/-! ## Helper lemmas: restoration for `word_search` and `permutations` -/

theorem set2_mark_restore (b : List (List Char)) (rn cn : Nat) (x : Char) :
    set2 (set2 b rn cn x) rn cn (get2 b rn cn ' ') = b := by
  rw [set2_set2, set2_get2_self]

theorem ws_backtrack_restore (word : List Char) (rows cols : Nat) :
    ∀ fuel r c index board,
      (ws_backtrack word rows cols fuel r c index board).2 = board := by
  intro fuel
  induction fuel with
  | zero =>
    intro r c index board
    rw [ws_backtrack]
    split
    · rfl
    · split
      · rfl
      · rfl
  | succ f ih =>
    intro r c index board
    rw [ws_backtrack]
    split
    · rfl
    · split
      · rfl
      · simp only [ih, set2_mark_restore]
        split
        · rfl
        · split
          · rfl
          · split
            · rfl
            · rfl

theorem ws_scan_restore (word : List Char) (rows cols : Nat) :
    ∀ cells board, (ws_scan word rows cols cells board).2 = board := by
  intro cells
  induction cells with
  | nil => intro board; rfl
  | cons rc rest ih =>
    intro board
    rw [ws_scan]
    simp only [ws_backtrack_restore]
    split
    · rfl
    · exact ih board

theorem swapL_length (l : List Int) (i j : Nat) : (swapL l i j).length = l.length := by
  simp [swapL]

theorem swapL_swapL (l : List Int) (i j : Nat) (hi : i < l.length) (hj : j < l.length) :
    swapL (swapL l i j) i j = l := by
  have hmj : (swapL l i j).getD j 0 = l.getD i 0 :=
    getD_set_self _ _ _ _ (by simpa [swapL] using hj)
  have hmi : (swapL l i j).getD i 0 = l.getD j 0 := by
    by_cases hij : i = j
    · subst hij
      exact getD_set_self _ _ _ _ (by simpa using hj)
    · unfold swapL
      rw [getD_set_ne _ _ _ _ _ (Ne.symm hij), getD_set_self _ _ _ _ hi]
  show ((swapL l i j).set i ((swapL l i j).getD j 0)).set j ((swapL l i j).getD i 0) = l
  rw [hmj, hmi]
  apply List.ext_getElem (by simp [swapL])
  intro k hk1 hk2
  by_cases hjk : j = k
  · subst hjk
    rw [List.getElem_set_self (by simp [swapL]; omega)]
    exact List.getD_eq_getElem l 0 hj
  · rw [List.getElem_set_ne hjk]
    by_cases hik : i = k
    · subst hik
      rw [List.getElem_set_self (by simp [swapL]; omega)]
      exact List.getD_eq_getElem l 0 hi
    · rw [List.getElem_set_ne hik]
      unfold swapL
      rw [List.getElem_set_ne hjk, List.getElem_set_ne hik]

theorem perm_loop_restore (start : Nat)
    (rec : List Int → List (List Int) × List Int)
    (hb : ∀ nums, (rec nums).2 = nums) :
    ∀ cands nums, (∀ i ∈ cands, start ≤ i ∧ i < nums.length) →
      (perm_loop start rec cands nums).2 = nums := by
  intro cands
  induction cands with
  | nil => intro nums h; rfl
  | cons i rest ih =>
    intro nums h
    obtain ⟨hsi, hilen⟩ := h i (List.mem_cons_self i rest)
    show (perm_loop start rec rest (swapL (rec (swapL nums start i)).2 start i)).2 = nums
    rw [hb]
    rw [swapL_swapL nums start i (lt_of_le_of_lt hsi hilen) hilen]
    exact ih nums fun j hj => h j (List.mem_cons_of_mem _ hj)

theorem perm_backtrack_restore :
    ∀ fuel start nums, (perm_backtrack fuel start nums).2 = nums := by
  intro fuel
  induction fuel with
  | zero =>
    intro start nums
    rw [perm_backtrack]
    split
    · rfl
    · rfl
  | succ f ih =>
    intro start nums
    rw [perm_backtrack]
    split
    · rfl
    · show (perm_loop start (fun ns => perm_backtrack f (start + 1) ns)
        (List.range' start (nums.length - start)) nums).2 = nums
      refine perm_loop_restore start _ (fun ns => ih (start + 1) ns) _ nums ?_
      intro i hi
      rw [List.mem_range'_1] at hi
      omega

/-! ## Helper lemmas: `hamiltonian_cycle` -/

theorem ham_is_safe_iff (g : List (List Int)) (path : List Int) (v pos : Nat) :
    ham_is_safe g path v pos = true ↔
      gmat g (path.getD (pos - 1) 0) (v : Int) ≠ 0 ∧ (v : Int) ∉ path := by
  unfold ham_is_safe
  split_ifs <;> simp_all

theorem set_set_back (path : List Int) (pos : Nat) (v : Int)
    (h : path.getD pos 0 = -1) :
    (path.set pos v).set pos (-1) = path := by
  rw [List.set_set, ← h]
  exact set_getD_self path pos 0

theorem hamLoop_restore (g : List (List Int)) (n pos : Nat)
    (rec : List Int → Bool × List Int)
    (hrec : ∀ p, p.length = n → (∀ i, pos + 1 ≤ i → i < n → p.getD i 0 = -1) →
      (rec p).1 = false → (rec p).2 = p) :
    ∀ cands path, path.length = n →
      (∀ i, pos ≤ i → i < n → path.getD i 0 = -1) →
      (hamLoop g pos rec cands path).1 = false →
      (hamLoop g pos rec cands path).2 = path := by
  intro cands
  induction cands with
  | nil => intro path _ _ _; rfl
  | cons v vs ih =>
    intro path hlen htail hf
    cases hsafe : ham_is_safe g path v pos with
    | false =>
      simp only [hamLoop, hsafe, Bool.false_eq_true, if_false] at hf ⊢
      exact ih path hlen htail hf
    | true =>
      simp only [hamLoop, hsafe, if_true] at hf ⊢
      have hp1len : (path.set pos (v : Int)).length = n := by simp [hlen]
      have hp1tail : ∀ i, pos + 1 ≤ i → i < n →
          (path.set pos (v : Int)).getD i 0 = -1 := by
        intro i h1 h2
        rw [getD_set_ne _ _ _ _ _ (by omega)]
        exact htail i (by omega) h2
      cases hb : (rec (path.set pos (v : Int))).1 with
      | true => simp [hb] at hf
      | false =>
        simp only [hb, Bool.false_eq_true, if_false] at hf ⊢
        have hr := hrec _ hp1len hp1tail hb
        rw [hr] at hf ⊢
        by_cases hp : pos < n
        · rw [set_set_back path pos _ (htail pos le_rfl hp)] at hf ⊢
          exact ih path hlen htail hf
        · have hnoop1 : path.set pos (v : Int) = path :=
            List.set_eq_of_length_le (by omega)
          have hnoop2 : path.set pos (-1 : Int) = path :=
            List.set_eq_of_length_le (by omega)
          rw [hnoop1, hnoop2] at hf ⊢
          exact ih path hlen htail hf

theorem hamUtil_at_n (g : List (List Int)) (n fuel : Nat) (path : List Int) :
    hamUtil g n fuel n path =
      (decide (gmat g (path.getD (n - 1) 0) (path.getD 0 0) = 1), path) := by
  rw [hamUtil.eq_def]
  simp

theorem hamUtil_restore (g : List (List Int)) (n : Nat) :
    ∀ fuel pos path, path.length = n →
      (∀ i, pos ≤ i → i < n → path.getD i 0 = -1) →
      (hamUtil g n fuel pos path).1 = false →
      (hamUtil g n fuel pos path).2 = path := by
  intro fuel
  induction fuel with
  | zero =>
    intro pos path _ _ _
    by_cases hpn : pos = n
    · subst hpn
      rw [hamUtil_at_n]
    · rw [hamUtil.eq_def]
      simp [hpn]
  | succ f ih =>
    intro pos path hlen htail hf
    by_cases hpn : pos = n
    · subst hpn
      rw [hamUtil_at_n]
    · rw [hamUtil.eq_def] at hf ⊢
      simp only [if_neg hpn] at hf ⊢
      exact hamLoop_restore g n pos _
        (fun p hl ht hb => ih (pos + 1) p hl ht hb) _ path hlen htail hf

theorem hamInv_step (g : List (List Int)) (n pos : Nat) (path : List Int) (v : Nat)
    (hInv : HamInv g n pos path) (hpos : pos < n) (_hv1 : 1 ≤ v) (hvn : v < n)
    (hsafe : ham_is_safe g path v pos = true) :
    HamInv g n (pos + 1) (path.set pos (v : Int)) := by
  obtain ⟨hlen, hpos1, _, h0, hbnd, htail, hdist, hedge⟩ := hInv
  obtain ⟨hedgeNew, hnotmem⟩ := (ham_is_safe_iff g path v pos).mp hsafe
  have hplen : pos < path.length := by omega
  refine ⟨by simp [hlen], by omega, by omega, ?_, ?_, ?_, ?_, ?_⟩
  · rw [getD_set_ne _ _ _ _ _ (by omega)]
    exact h0
  · intro i hi
    by_cases hip : i = pos
    · subst hip
      rw [getD_set_self _ _ _ _ hplen]
      exact ⟨Int.ofNat_nonneg v, by exact_mod_cast hvn⟩
    · rw [getD_set_ne _ _ _ _ _ (Ne.symm hip)]
      exact hbnd i (by omega)
  · intro i h1 h2
    rw [getD_set_ne _ _ _ _ _ (by omega)]
    exact htail i (by omega) h2
  · intro i j hij hj
    by_cases hjp : j = pos
    · subst hjp
      rw [getD_set_self _ _ _ _ hplen, getD_set_ne _ _ _ _ _ (by omega)]
      intro hEq
      apply hnotmem
      rw [← hEq]
      have hilen : i < path.length := by omega
      rw [List.getD_eq_getElem _ _ hilen]
      exact List.getElem_mem hilen
    · have hjpos : j < pos := by omega
      rw [getD_set_ne _ _ _ _ _ (show pos ≠ i by omega),
        getD_set_ne _ _ _ _ _ (show pos ≠ j by omega)]
      exact hdist i j hij hjpos
  · intro i hi
    by_cases hip : i + 1 = pos
    · rw [getD_set_ne _ _ _ _ _ (show pos ≠ i by omega), hip,
        getD_set_self _ _ _ _ hplen]
      have hieq : i = pos - 1 := by omega
      rw [hieq]
      exact hedgeNew
    · have hi1 : i + 1 < pos := by omega
      rw [getD_set_ne _ _ _ _ _ (show pos ≠ i by omega),
        getD_set_ne _ _ _ _ _ (show pos ≠ i + 1 by omega)]
      exact hedge i hi1

theorem hamGood_of_terminal (g : List (List Int)) (n : Nat) (path : List Int)
    (hInv : HamInv g n n path)
    (hclose : gmat g (path.getD (n - 1) 0) (path.getD 0 0) = 1) :
    HamGood g n path := by
  obtain ⟨hlen, _, _, h0, hbnd, _, hdist, hedge⟩ := hInv
  exact ⟨hlen, h0, hbnd, hdist, hedge, hclose⟩

theorem hamLoop_sound (g : List (List Int)) (n pos : Nat)
    (rec : List Int → Bool × List Int)
    (hrecT : ∀ p, HamInv g n (pos + 1) p → (rec p).1 = true → HamGood g n (rec p).2)
    (hrecF : ∀ p, p.length = n → (∀ i, pos + 1 ≤ i → i < n → p.getD i 0 = -1) →
      (rec p).1 = false → (rec p).2 = p)
    (hpos : pos < n) :
    ∀ cands path, (∀ v ∈ cands, 1 ≤ v ∧ v < n) → HamInv g n pos path →
      (hamLoop g pos rec cands path).1 = true →
      HamGood g n (hamLoop g pos rec cands path).2 := by
  intro cands
  induction cands with
  | nil => intro path _ _ ht; simp [hamLoop] at ht
  | cons v vs ih =>
    intro path hc hInv ht
    obtain ⟨hv1, hvn⟩ := hc v (List.mem_cons_self v vs)
    cases hsafe : ham_is_safe g path v pos with
    | false =>
      simp only [hamLoop, hsafe, Bool.false_eq_true, if_false] at ht ⊢
      exact ih path (fun w hw => hc w (List.mem_cons_of_mem _ hw)) hInv ht
    | true =>
      simp only [hamLoop, hsafe, if_true] at ht ⊢
      have hInv1 := hamInv_step g n pos path v hInv hpos hv1 hvn hsafe
      cases hb : (rec (path.set pos (v : Int))).1 with
      | true =>
        simp only [hb, if_true] at ht ⊢
        exact hrecT _ hInv1 hb
      | false =>
        simp only [hb, Bool.false_eq_true, if_false] at ht ⊢
        have hp1len : (path.set pos (v : Int)).length = n := by simp [hInv.1]
        have hr := hrecF _ hp1len
          (fun i h1 h2 => hInv1.2.2.2.2.2.1 i (by omega) h2) hb
        rw [hr] at ht ⊢
        rw [set_set_back path pos _ (hInv.2.2.2.2.2.1 pos le_rfl hpos)] at ht ⊢
        exact ih path (fun w hw => hc w (List.mem_cons_of_mem _ hw)) hInv ht

theorem hamUtil_sound (g : List (List Int)) (n : Nat) :
    ∀ fuel pos path, n ≤ fuel + pos → HamInv g n pos path →
      (hamUtil g n fuel pos path).1 = true →
      HamGood g n (hamUtil g n fuel pos path).2 := by
  intro fuel
  induction fuel with
  | zero =>
    intro pos path hfuel hInv ht
    have hpn : pos = n := by
      have := hInv.2.2.1
      omega
    subst hpn
    rw [hamUtil_at_n] at ht ⊢
    simp only [decide_eq_true_eq] at ht
    exact hamGood_of_terminal g pos path hInv ht
  | succ f ih =>
    intro pos path hfuel hInv ht
    by_cases hpn : pos = n
    · subst hpn
      rw [hamUtil_at_n] at ht ⊢
      simp only [decide_eq_true_eq] at ht
      exact hamGood_of_terminal g pos path hInv ht
    · have hpos : pos < n := by
        have := hInv.2.2.1
        omega
      rw [hamUtil.eq_def] at ht ⊢
      simp only [if_neg hpn] at ht ⊢
      refine hamLoop_sound g n pos _
        (fun p hp hb => ih (pos + 1) p (by omega) hp hb)
        (fun p hl htl hb => hamUtil_restore g n f (pos + 1) p hl htl hb)
        hpos _ path ?_ hInv ht
      intro w hw
      rw [List.mem_range'_1] at hw
      omega

theorem hamInv_init (g : List (List Int)) (hne : g ≠ []) :
    HamInv g g.length 1 ((List.replicate g.length (-1 : Int)).set 0 0) := by
  have hn1 : 1 ≤ g.length := List.length_pos.mpr hne
  have hlen : ((List.replicate g.length (-1 : Int)).set 0 0).length = g.length := by
    simp
  refine ⟨hlen, le_rfl, hn1, ?_, ?_, ?_, ?_, ?_⟩
  · exact getD_set_self _ _ _ _ (by simpa using hn1)
  · intro i hi
    have hi0 : i = 0 := by omega
    subst hi0
    rw [getD_set_self _ _ _ _ (by simpa using hn1)]
    exact ⟨le_rfl, by exact_mod_cast hn1⟩
  · intro i h1 h2
    rw [getD_set_ne _ _ _ _ _ (by omega)]
    rw [List.getD_eq_getElem _ _ (by simpa using h2), List.getElem_replicate]
  · intro i j hij hj
    omega
  · intro i hi
    omega

theorem getD_zero_or_mem (l : List Int) (k : Nat) : l.getD k 0 ∈ l ∨ l.getD k 0 = 0 := by
  by_cases h : k < l.length
  · left
    rw [List.getD_eq_getElem _ _ h]
    exact List.getElem_mem h
  · right
    exact List.getD_eq_default _ _ (by omega)

theorem gmat_01 (g : List (List Int))
    (h01 : ∀ row ∈ g, ∀ x ∈ row, x = 0 ∨ x = 1)
    (u v : Int) (hu : 0 ≤ u) (hun : u < (g.length : Int)) :
    gmat g u v = 0 ∨ gmat g u v = 1 := by
  unfold gmat pyGetI pyGetRow
  rw [if_pos hu]
  have hrow : g.getD u.toNat [] ∈ g := by
    rw [List.getD_eq_getElem _ _ (by omega)]
    exact List.getElem_mem (by omega)
  split_ifs
  · rcases getD_zero_or_mem (g.getD u.toNat []) _ with hmem | hzero
    · exact h01 _ hrow _ hmem
    · left; exact hzero
  · rcases getD_zero_or_mem (g.getD u.toNat []) _ with hmem | hzero
    · exact h01 _ hrow _ hmem
    · left; exact hzero

theorem hamGood_props (g : List (List Int)) (q : List Int) (hne : g ≠ [])
    (h01 : ∀ row ∈ g, ∀ x ∈ row, x = 0 ∨ x = 1)
    (hGood : HamGood g g.length q) :
    IsHamProps g (q ++ [q.getD 0 0]) := by
  obtain ⟨hqlen, hq0, hqbnd, hqdist, hqedge, hqclose⟩ := hGood
  have hn1 : 1 ≤ g.length := List.length_pos.mpr hne
  have hgetD : ∀ k (hk : k < q.length), q.getD k 0 = q.get ⟨k, hk⟩ := fun k hk =>
    List.getD_eq_getElem q 0 hk
  have hleft : ∀ i, i < g.length → (q ++ [q.getD 0 0]).getD i 0 = q.getD i 0 :=
    fun i hi => List.getD_append q [q.getD 0 0] 0 i (by omega)
  have hlast : (q ++ [q.getD 0 0]).getD g.length 0 = 0 := by
    rw [List.getD_eq_getElem _ _ (by simp [hqlen]),
      List.getElem_concat_length q _ g.length hqlen.symm]
    exact hq0
  refine ⟨by simp [hqlen], ?_, hlast, ?_, ?_⟩
  · rw [hleft 0 hn1]
    exact hq0
  · have htake : (q ++ [q.getD 0 0]).take g.length = q := by
      rw [← hqlen]
      exact List.take_left q _
    rw [htake]
    have hnd : q.Nodup := by
      rw [List.nodup_iff_injective_get]
      rintro ⟨i, hi⟩ ⟨j, hj⟩ hEq
      by_contra hne2
      have hij : i ≠ j := fun hc => hne2 (by simp [hc])
      rcases Nat.lt_or_ge i j with h | h
      · exact hqdist i j h (by omega) (by rw [hgetD i hi, hgetD j hj]; exact hEq)
      · exact hqdist j i (by omega) (by omega)
          (by rw [hgetD i hi, hgetD j hj] at *; exact hEq.symm)
    have hsub : q ⊆ (List.range g.length).map Int.ofNat := by
      intro x hx
      obtain ⟨i, hi, hqi⟩ := List.mem_iff_getElem.mp hx
      have hb := hqbnd i (by omega)
      rw [hgetD i hi] at hb
      simp only [List.get_eq_getElem] at hb
      rw [hqi] at hb
      rw [List.mem_map]
      exact ⟨x.toNat, List.mem_range.mpr (by omega), Int.toNat_of_nonneg hb.1⟩
    exact List.Subperm.perm_of_length_le (List.Nodup.subperm hnd hsub)
      (by simp [hqlen])
  · intro i hi
    rcases Nat.lt_or_ge (i + 1) g.length with h1 | h1
    · rw [hleft i hi, hleft (i + 1) h1]
      have hnz := hqedge i (by omega)
      have hb := hqbnd i (by omega)
      rcases gmat_01 g h01 _ _ hb.1 hb.2 with h | h
      · exact absurd h hnz
      · exact h
    · have hieq : i = g.length - 1 := by omega
      have h1eq : i + 1 = g.length := by omega
      rw [hleft i hi, h1eq, hlast, hieq]
      have hcl := hqclose
      rw [hq0] at hcl
      exact hcl

/-! ## Claim theorems -/

/-- Claim C1 (evidence of the code bug): `badBoard` is a well-formed 9x9
board with digits `0..9`; it admits no solution (third conjunct), and the
inner search `solve_sudoku` correctly reports failure on it (second
conjunct), yet `sudoku_solver` returns `True` (first conjunct), because
source lines 131-132 call `solve_sudoku()`, discard its boolean, and return
`True` unconditionally — contradicting the docstring "True if the Sudoku is
solved, False otherwise" and the spec's "a well-formed input that has no
solution returns an empty/false result". -/
theorem sudoku_solver_true_on_unsolvable :
    sudoku_solver badBoard = some (true, badBoard) ∧
    (solveSudoku 82 badBoard).1 = false ∧
    ¬ ∃ sol, isSudokuSolution badBoard sol := by
  refine ⟨by decide, by decide, ?_⟩
  rintro ⟨sol, hrange, hkeep, hrow, hcol, -⟩
  have hbb : ∀ c, c < 8 → get2 badBoard 0 c 0 = c + 1 ∧ get2 badBoard 0 c 0 ≠ 0 := by
    decide
  have hvals : ∀ c, c < 8 → get2 sol 0 c 0 = c + 1 := fun c hc =>
    (hkeep 0 (by omega) c (by omega) (hbb c hc).2).trans (hbb c hc).1
  have hne : ∀ c, c < 8 → get2 sol 0 c 0 ≠ get2 sol 0 8 0 := fun c hc =>
    hrow 0 (by omega) c (by omega) 8 (by omega) (by omega)
  have hv := hrange 0 (by omega) 8 (by omega)
  have h18 : get2 sol 1 8 0 = 9 :=
    (hkeep 1 (by omega) 8 (by omega) (by decide)).trans (by decide)
  have hc8 : get2 sol 0 8 0 ≠ get2 sol 1 8 0 :=
    hcol 8 (by omega) 0 (by omega) 1 (by omega) (by omega)
  have hlt : get2 sol 0 8 0 ≤ 8 := by omega
  have h7 := hne (get2 sol 0 8 0 - 1) (by omega)
  rw [hvals _ (by omega)] at h7
  omega

/-- Claim C2 counterexample: the state seen by the very first `is_valid`
call that `magic_square(3)`'s search performs (`backtrack(0, 0)` trying
candidate `num = 1` on the fresh all-zero state) is not preserved — the
call returns `True` and leaves `1` written into `square[0][0]` and recorded
in `used`, so `is_valid` is not a pure test of (state, candidate,
position). -/
theorem ms_is_valid_mutates :
    (ms_is_valid 3 (msInit 3) 0 0 1).1 = true ∧
    (ms_is_valid 3 (msInit 3) 0 0 1).2 ≠ msInit 3 := by decide

/-- Claim C2 amended: for every state whose current cell is empty (which
holds at every reachable `is_valid` call of the search), `is_valid` leaves
the square and the used set exactly as they were *only when it returns
`False`; when it returns `True` it leaves `num` placed at `(row, col)` and
inserted into `used` — the placement, not a pure test, is how the search
applies the candidate. -/
theorem ms_is_valid_state (n : Nat) (st : MSState) (row col num : Nat)
    (h0 : get2 st.square row col 0 = 0) :
    ((ms_is_valid n st row col num).1 = false →
      (ms_is_valid n st row col num).2 = st) ∧
    ((ms_is_valid n st row col num).1 = true →
      (ms_is_valid n st row col num).2
        = ⟨set2 st.square row col num, insert num st.used⟩) := by
  have hsq : set2 (set2 st.square row col num) row col 0 = st.square := by
    rw [set2_set2]
    conv_lhs => rw [← h0]
    exact set2_get2_self st.square row col 0
  unfold ms_is_valid
  by_cases hmem : num ∈ st.used
  · simp [hmem]
  · have hundo :
        (⟨set2 (set2 st.square row col num) row col 0,
          (insert num st.used).erase num⟩ : MSState) = st := by
      rw [hsq, Finset.erase_insert hmem]
    simp only [if_neg hmem]
    split_ifs
    · exact ⟨fun _ => hundo, by simp⟩
    · exact ⟨fun _ => hundo, by simp⟩
    · exact ⟨fun _ => hundo, by simp⟩
    · exact ⟨fun _ => hundo, by simp⟩
    · exact ⟨by simp, fun _ => rfl⟩

/-- Claim C2 amended, witnessed at the first call of `magic_square(3)`'s
search. -/
theorem ms_is_valid_state_witness :
    get2 (msInit 3).square 0 0 0 = 0 ∧
    (((ms_is_valid 3 (msInit 3) 0 0 1).1 = false →
      (ms_is_valid 3 (msInit 3) 0 0 1).2 = msInit 3) ∧
    ((ms_is_valid 3 (msInit 3) 0 0 1).1 = true →
      (ms_is_valid 3 (msInit 3) 0 0 1).2
        = ⟨set2 (msInit 3).square 0 0 1, insert 1 (msInit 3).used⟩)) :=
  ⟨by decide, ms_is_valid_state 3 (msInit 3) 0 0 1 (by decide)⟩

/-- Claim C3: after a `word_search` call the board is restored cell for
cell (the `"#"` marker written before each recursive descent is overwritten
with the saved character on every exit path), and after a `permutations`
call the argument list holds its original elements in their original order
(each in-place swap is mirrored by the inverse swap). -/
theorem word_search_permutations_restore :
    (∀ board word, (word_search board word).2 = board) ∧
    (∀ nums, (permutations nums).2 = nums) := by
  constructor
  · intro board word
    unfold word_search
    split
    · rfl
    · exact ws_scan_restore word board.length (board.getD 0 []).length _ board
  · intro nums
    exact perm_backtrack_restore (nums.length + 1) 0 nums

/-- Claim C4: `n_queens(4)` returns exactly the two solutions
`[1, 3, 0, 2]` and `[2, 0, 3, 1]`; each has 4 entries, is a permutation of
`{0, 1, 2, 3}`, and places no two queens on a shared column or diagonal. -/
theorem n_queens_four :
    n_queens 4 = [[1, 3, 0, 2], [2, 0, 3, 1]] ∧
    (n_queens 4).length = 2 ∧
    ∀ sol ∈ n_queens 4, sol.length = 4 ∧ sol.Perm [0, 1, 2, 3] ∧
      ∀ j < 4, ∀ i < j,
        pyget sol i 0 ≠ pyget sol j 0 ∧
        (pyget sol i 0 : Int) - i ≠ (pyget sol j 0 : Int) - j ∧
        pyget sol i 0 + i ≠ pyget sol j 0 + j := by decide

/-- Claim C5: `subset_sum([1, 2, 3], 3)` returns exactly `[[1, 2], [3]]`,
in that order. -/
theorem subset_sum_one_two_three :
    subset_sum [1, 2, 3] 3 = [[1, 2], [3]] := by decide

/-- Claim C7: the two pattern-matching examples of the spec:
`"aab"` matches `"c*a*b"` and `"mississippi"` does not match
`"mis*is*p*."`. -/
theorem pattern_matching_examples :
    string_pattern_matching "aab".toList "c*a*b".toList = true ∧
    string_pattern_matching "mississippi".toList "mis*is*p*.".toList = false := by
  decide

/-- Claim C8: `all_possible_valid_parentheses(3)` returns exactly 5
strings, each of length 6, each balanced, with no duplicates. -/
theorem parentheses_three :
    (all_possible_valid_parentheses 3).length = 5 ∧
    (∀ s ∈ all_possible_valid_parentheses 3, s.length = 6) ∧
    (∀ s ∈ all_possible_valid_parentheses 3, isBalanced s = true) ∧
    (all_possible_valid_parentheses 3).Nodup := by decide

/-- Claim C9: empty inputs yield the trivial result:
`permutations([])` returns `[[]]`, `all_possible_valid_parentheses(0)`
returns `[""]`, and `subset_sum([], target)` returns `[[]]` exactly when
the target is `0` and `[]` otherwise. -/
theorem empty_inputs_trivial :
    (permutations []).1 = [[]] ∧
    all_possible_valid_parentheses 0 = [[]] ∧
    ∀ t : Int, subset_sum [] t = if t = 0 then [[]] else [] := by
  refine ⟨by decide, by decide, ?_⟩
  intro t
  by_cases h : t = 0
  · subst h; decide
  · rw [subset_sum, ss_backtrack.eq_def]
    simp [eq_comm, h]

/-- Claim C10: the moment the running sum reaches the target the subset is
recorded and the recursion returns without extending it (first conjunct,
directly from the code's first branch); in particular
`subset_sum([3, 0], 3)` is exactly `[[3]]` and omits `[3, 0]` even though
`[3, 0]` also sums to `3`. -/
theorem subset_sum_stops_at_target :
    (∀ nums target fuel start path,
      ss_backtrack nums target fuel start path target = [path]) ∧
    subset_sum [3, 0] 3 = [[3]] ∧
    [3, 0] ∉ subset_sum [3, 0] 3 := by
  refine ⟨?_, by decide, by decide⟩
  intro nums target fuel start path
  rw [ss_backtrack.eq_def]
  simp

/-- Claim C6: for every non-empty square 0/1 adjacency matrix, (i) a
non-empty list returned by `hamiltonian_cycle` has length `n + 1`, starts
and ends at vertex `0`, visits every vertex exactly once in its first `n`
entries, and follows edges of the graph, the closing edge included; and
(ii) if no such cycle exists the function returns the empty list.  (The
empty graph is excluded because the source raises `ValueError` on it.) -/
theorem hamiltonian_cycle_sound (g : List (List Int)) (hne : g ≠ [])
    (hsq : ∀ row ∈ g, row.length = g.length)
    (h01 : ∀ row ∈ g, ∀ x ∈ row, x = 0 ∨ x = 1) :
    (∀ p, hamiltonian_cycle g = some p → p ≠ [] → IsHamProps g p) ∧
    ((¬ ∃ p, p ≠ [] ∧ IsHamProps g p) → hamiltonian_cycle g = some []) := by
  have hval : ¬ (g = [] ∨ ¬ ∀ row ∈ g, row.length = g.length) := by
    push_neg
    exact ⟨hne, hsq⟩
  have hres : hamiltonian_cycle g =
      (if (hamUtil g g.length g.length 1
            ((List.replicate g.length (-1 : Int)).set 0 0)).1 then
        some ((hamUtil g g.length g.length 1
            ((List.replicate g.length (-1 : Int)).set 0 0)).2 ++
          [(hamUtil g g.length g.length 1
            ((List.replicate g.length (-1 : Int)).set 0 0)).2.getD 0 0])
      else some []) := by
    unfold hamiltonian_cycle
    rw [if_neg hval]
  have hkey : (hamUtil g g.length g.length 1
        ((List.replicate g.length (-1 : Int)).set 0 0)).1 = true →
      IsHamProps g ((hamUtil g g.length g.length 1
          ((List.replicate g.length (-1 : Int)).set 0 0)).2 ++
        [(hamUtil g g.length g.length 1
          ((List.replicate g.length (-1 : Int)).set 0 0)).2.getD 0 0]) := by
    intro hT
    have hGood := hamUtil_sound g g.length g.length 1 _
      (by omega) (hamInv_init g hne) hT
    have hq0 := hGood.2.1
    rw [hq0]
    have hout := hamGood_props g _ hne h01 hGood
    rw [hq0] at hout
    exact hout
  constructor
  · intro p hp hpne
    rw [hres] at hp
    by_cases hb : (hamUtil g g.length g.length 1
        ((List.replicate g.length (-1 : Int)).set 0 0)).1 = true
    · rw [if_pos hb] at hp
      obtain rfl := Option.some.inj hp
      exact hkey hb
    · rw [if_neg hb] at hp
      obtain rfl := Option.some.inj hp
      exact absurd rfl hpne
  · intro hno
    rw [hres]
    by_cases hb : (hamUtil g g.length g.length 1
        ((List.replicate g.length (-1 : Int)).set 0 0)).1 = true
    · exact absurd ⟨_, by simp, hkey hb⟩ hno
    · rw [if_neg hb]

/-- Claim C6 witnessed on the triangle graph: `hamiltonian_cycle` returns
`[0, 1, 2, 0]` and that list has every property the claim asserts. -/
theorem hamiltonian_cycle_sound_witness :
    IsHamProps [[0, 1, 1], [1, 0, 1], [1, 1, 0]] [0, 1, 2, 0] :=
  (hamiltonian_cycle_sound [[0, 1, 1], [1, 0, 1], [1, 1, 0]]
      (by decide) (by decide) (by decide)).1
    [0, 1, 2, 0] (by decide) (by decide)

end DSA
